import Mathlib

/-!
Verification development for the blaze native engine commons:
a shallow embedding of
src/native-engine/datafusion-ext-commons/src/array_builder.rs (the typed
array builder factory and append engine) and
src/native-engine/datafusion-ext-commons/src/streams/ipc_stream.rs (the
segment sequence reader and byte channel adapter), together with proofs of
the specified properties.

Machine values stored in arrays are abstracted to an arbitrary type so that
the structural behaviour (lengths, order, validity, dictionary key
resolution, type dispatch) is what the embedding tracks; Rust panics
(unimplemented, failed downcasts, out of bounds accesses) are embedded as
Except errors.
-/

set_option maxHeartbeats 1000000

deriving instance DecidableEq for Except

namespace Blaze

/-- Arrow TimeUnit, as used by the DataType variants in array_builder.rs. -/
inductive TimeUnit
  | second
  | millisecond
  | microsecond
  | nanosecond
deriving DecidableEq

/-- The closed set of logical column types handled by array_builder.rs
(the arrow DataType variants that appear in its dispatch matches). -/
inductive DataType
  | null
  | boolean
  | int8
  | int16
  | int32
  | int64
  | uint8
  | uint16
  | uint32
  | uint64
  | float32
  | float64
  | date32
  | date64
  | timestamp (unit : TimeUnit) (tz : Option String)
  | time32 (unit : TimeUnit)
  | time64 (unit : TimeUnit)
  | binary
  | largeBinary
  | utf8
  | largeUtf8
  | decimal128 (precision : Nat) (scale : Int)
  | decimal256 (precision : Nat) (scale : Int)
  | dictionary (keyType : DataType) (valueType : DataType)
deriving DecidableEq

/-- Faults of the embedded code: an unimplemented dispatch arm
(UnsupportedType), a failed concrete downcast (TypeMismatch), and an
out-of-bounds array access. All three are panics in the Rust source. -/
inductive BlazeError
  | unsupportedType
  | typeMismatch
  | indexOutOfBounds
deriving DecidableEq

/-- The Rust builder and array types do not carry the timestamp timezone in
their concrete type (TimestampSecondBuilder serves every timezone), so a
downcast succeeds whenever the erased representations agree. -/
def eraseRepr : DataType → DataType
  | .timestamp u _ => .timestamp u none
  | d => d

/-- DataTypes routed by the append_simple arm of builder_extend (and the
identically shaped simple arm of builder_append_null): every arm of the
source match except Null, Decimal and Dictionary, with the time units
restricted exactly as in the source. -/
def simpleDispatchSupported : DataType → Bool
  | .boolean => true
  | .int8 => true
  | .int16 => true
  | .int32 => true
  | .int64 => true
  | .uint8 => true
  | .uint16 => true
  | .uint32 => true
  | .uint64 => true
  | .float32 => true
  | .float64 => true
  | .date32 => true
  | .date64 => true
  | .timestamp _ _ => true
  | .time32 .second => true
  | .time32 .millisecond => true
  | .time64 .microsecond => true
  | .time64 .nanosecond => true
  | .binary => true
  | .largeBinary => true
  | .utf8 => true
  | .largeUtf8 => true
  | _ => false

/-- Dictionary key types accepted by the append_dict and
make_dictionary_builder macros: the eight integer widths. -/
def dictKeySupported : DataType → Bool
  | .int8 => true
  | .int16 => true
  | .int32 => true
  | .int64 => true
  | .uint8 => true
  | .uint16 => true
  | .uint32 => true
  | .uint64 => true
  | _ => false

/-- Dictionary value types accepted by the append_dict and
make_dictionary_builder macros. -/
def dictValueSupported : DataType → Bool
  | .int8 => true
  | .int16 => true
  | .int32 => true
  | .int64 => true
  | .uint8 => true
  | .uint16 => true
  | .uint32 => true
  | .uint64 => true
  | .float32 => true
  | .float64 => true
  | .date32 => true
  | .date64 => true
  | .utf8 => true
  | .largeUtf8 => true
  | _ => false

/-- The value type of the dictionary builder the factory actually creates:
make_dictionary_builder maps both Utf8 and LargeUtf8 to a
StringDictionaryBuilder, whose output value type is Utf8; every primitive
value type is kept as is. -/
def dictBuiltValueType : DataType → DataType
  | .largeUtf8 => .utf8
  | d => d

/-- The two decimal widths of array_builder.rs (Decimal128 and
Decimal256). -/
inductive DecWidth
  | w128
  | w256
deriving DecidableEq

/-- Whether an array DataType is the decimal array type of the given
width (the downcast target of the append_decimal macro). -/
def decimalTypeMatches : DecWidth → DataType → Bool
  | .w128, .decimal128 _ _ => true
  | .w256, .decimal256 _ _ => true
  | _, _ => false

/-- A materialized arrow column, reduced to its structural content: a null
column of some length, a simple typed column of validity-and-value slots,
or a dictionary column of optional keys into a values array. -/
inductive ArrowArray (α : Type)
  | nullArr (len : Nat)
  | simple (dt : DataType) (entries : List (Option α))
  | dict (keyType valueType : DataType) (keys : List (Option Nat)) (values : List α)
deriving DecidableEq

/-- The builders of array_builder.rs: the counting-only NullBuilder, a
simple typed builder (everything make_builder produces), the
ConfiguredDecimalBuilder with its out-of-band precision and scale, and an
interning dictionary builder. -/
inductive ArrowBuilder (α : Type)
  | nullB (len : Nat)
  | simpleB (dt : DataType) (entries : List (Option α))
  | decimalB (width : DecWidth) (precision : Nat) (scale : Int) (entries : List (Option α))
  | dictB (keyType valueTypeRep : DataType) (values : List α) (keys : List (Option Nat))
deriving DecidableEq

/-- Resolve an optional dictionary key to its value. -/
def dictLookup (values : List α) : Option Nat → Option α
  | none => none
  | some k => values.get? k

/-- Logical content of a builder: one optional value per appended slot
(dictionary keys resolved through the interned values). -/
def ArrowBuilder.entries : ArrowBuilder α → List (Option α)
  | .nullB len => List.replicate len none
  | .simpleB _ es => es
  | .decimalB _ _ _ es => es
  | .dictB _ _ values keys => keys.map (dictLookup values)

/-- Logical content of an array: one optional value per slot. -/
def ArrowArray.logical : ArrowArray α → List (Option α)
  | .nullArr len => List.replicate len none
  | .simple _ es => es
  | .dict _ _ keys values => keys.map (dictLookup values)

/-- Row count of an array. -/
def ArrowArray.len (a : ArrowArray α) : Nat :=
  a.logical.length

/-- First index of a value among the interned dictionary values (the lookup
the arrow dictionary builders do before deciding to intern a new value). -/
def dictIndexOf [DecidableEq α] (values : List α) (v : α) : Option Nat :=
  match values with
  | [] => none
  | w :: rest => if w = v then some 0 else (dictIndexOf rest v).map (· + 1)

/-- One append of a non-null value into a dictionary builder: reuse the key
of an already interned equal value, otherwise intern the value under a
fresh key. Models PrimitiveDictionaryBuilder::append and
StringDictionaryBuilder::append. -/
def dictAppendValue [DecidableEq α] (values : List α) (keys : List (Option Nat)) (v : α) :
    List α × List (Option Nat) :=
  match dictIndexOf values v with
  | some k => (values, keys ++ [some k])
  | none => (values ++ [v], keys ++ [some values.length])

/-- The per-index loop of the append_simple and append_decimal macros:
for each index, append the value when the source is valid there, otherwise
append a null; an index outside the source is a panic. -/
def extendSimple (bes aes : List (Option α)) : List Nat → Except BlazeError (List (Option α))
  | [] => .ok bes
  | i :: rest =>
    match aes.get? i with
    | none => .error .indexOutOfBounds
    | some e => extendSimple (bes ++ [e]) aes rest

/-- The per-index loop of the append_dict macro: for each valid index the
source key is resolved to its dictionary value, which is appended through
the destination builder's own interning; a null slot appends a null. -/
def extendDict [DecidableEq α] (values : List α) (keys : List (Option Nat))
    (akeys : List (Option Nat)) (avalues : List α) :
    List Nat → Except BlazeError (List α × List (Option Nat))
  | [] => .ok (values, keys)
  | i :: rest =>
    match akeys.get? i with
    | none => .error .indexOutOfBounds
    | some none => extendDict values (keys ++ [none]) akeys avalues rest
    | some (some k) =>
      match avalues.get? k with
      | none => .error .indexOutOfBounds
      | some v =>
        let p := dictAppendValue values keys v
        extendDict p.1 p.2 akeys avalues rest

/-- The DataType::Null arm of builder_extend: downcast to NullBuilder and
extend its count by the number of indices (the source array is not read). -/
def extendNullCase (b : ArrowBuilder α) (indices : List Nat) :
    Except BlazeError (ArrowBuilder α) :=
  match b with
  | .nullB len => .ok (.nullB (len + indices.length))
  | _ => .error .typeMismatch

/-- The Decimal arms of builder_extend: downcast builder to the configured
decimal builder of the width and the array to the decimal array of the
width (precision and scale are not part of the concrete Rust types), then
run the append_decimal loop. -/
def extendDecimalCase (width : DecWidth) (b : ArrowBuilder α) (a : ArrowArray α)
    (indices : List Nat) : Except BlazeError (ArrowBuilder α) :=
  match b, a with
  | .decimalB w p s bes, .simple adt aes =>
    if w = width ∧ decimalTypeMatches width adt = true then
      (extendSimple bes aes indices).map (.decimalB w p s ·)
    else .error .typeMismatch
  | _, _ => .error .typeMismatch

/-- The Dictionary arm of builder_extend (append_dict macro): dispatch on
the key type, then the value type (an arm outside the matrix is
unimplemented), then downcast builder and array and run the dict loop. -/
def extendDictCase [DecidableEq α] (kt vt : DataType) (b : ArrowBuilder α)
    (a : ArrowArray α) (indices : List Nat) : Except BlazeError (ArrowBuilder α) :=
  if dictKeySupported kt then
    if dictValueSupported vt then
      match b, a with
      | .dictB bkt bvt values keys, .dict akt avt akeys avalues =>
        if bkt = kt ∧ bvt = dictBuiltValueType vt ∧ akt = kt ∧ avt = vt then
          (extendDict values keys akeys avalues indices).map
            (fun p => .dictB bkt bvt p.1 p.2)
        else .error .typeMismatch
      | _, _ => .error .typeMismatch
    else .error .unsupportedType
  else .error .unsupportedType

/-- The simple arms of builder_extend: downcast the builder and the array
to the concrete types of the dispatched DataType (timezone erased from the
concrete type) and run the append_simple loop. -/
def extendSimpleCase (dt : DataType) (b : ArrowBuilder α) (a : ArrowArray α)
    (indices : List Nat) : Except BlazeError (ArrowBuilder α) :=
  match b, a with
  | .simpleB bdt bes, .simple adt aes =>
    if eraseRepr bdt = eraseRepr dt ∧ eraseRepr adt = eraseRepr dt then
      (extendSimple bes aes indices).map (.simpleB bdt ·)
    else .error .typeMismatch
  | _, _ => .error .typeMismatch

/-- builder_extend of array_builder.rs: dispatch over the DataType exactly
as the source match does; a DataType outside the matrix is unimplemented
(UnsupportedType) before anything is appended. -/
def builder_extend [DecidableEq α] (dataType : DataType) (b : ArrowBuilder α)
    (a : ArrowArray α) (indices : List Nat) : Except BlazeError (ArrowBuilder α) :=
  match dataType with
  | .null => extendNullCase b indices
  | .decimal128 _ _ => extendDecimalCase .w128 b a indices
  | .decimal256 _ _ => extendDecimalCase .w256 b a indices
  | .dictionary kt vt => extendDictCase kt vt b a indices
  | d =>
    if simpleDispatchSupported d then extendSimpleCase d b a indices
    else .error .unsupportedType

/-- builder_append_null of array_builder.rs: the same dispatch shape as
builder_extend except that the Dictionary arm is absent, so every
Dictionary DataType falls into the unimplemented default arm. -/
def builder_append_null (dataType : DataType) (b : ArrowBuilder α) :
    Except BlazeError (ArrowBuilder α) :=
  match dataType with
  | .null =>
    match b with
    | .nullB len => .ok (.nullB (len + 1))
    | _ => .error .typeMismatch
  | .decimal128 _ _ =>
    match b with
    | .decimalB w p s es =>
      if w = .w128 then .ok (.decimalB w p s (es ++ [none])) else .error .typeMismatch
    | _ => .error .typeMismatch
  | .decimal256 _ _ =>
    match b with
    | .decimalB w p s es =>
      if w = .w256 then .ok (.decimalB w p s (es ++ [none])) else .error .typeMismatch
    | _ => .error .typeMismatch
  | d =>
    if simpleDispatchSupported d then
      match b with
      | .simpleB bdt es =>
        if eraseRepr bdt = eraseRepr d then .ok (.simpleB bdt (es ++ [none]))
        else .error .typeMismatch
      | _ => .error .typeMismatch
    else .error .unsupportedType

/-- Modelled from the spec: make_builder is the upstream arrow factory
(not under src/) reached by the default arm of new_array_builder; per
section 4.1 of the spec, all other LogicalTypes get a default builder
sized by the capacity hint, which starts empty and finishes to an array of
exactly the input type. -/
def make_builder (dt : DataType) (_batchSize : Nat) : ArrowBuilder α :=
  .simpleB dt []

/-- new_array_builder of array_builder.rs: Null gets the counting builder,
Decimal gets a ConfiguredDecimalBuilder carrying the supplied precision
and scale, Dictionary dispatches key type then value type (arms outside
the matrix are unimplemented, and both Utf8 and LargeUtf8 values produce a
StringDictionaryBuilder), and everything else goes to make_builder. -/
def new_array_builder (dt : DataType) (batchSize : Nat) :
    Except BlazeError (ArrowBuilder α) :=
  match dt with
  | .null => .ok (.nullB 0)
  | .decimal128 p s => .ok (.decimalB .w128 p s [])
  | .decimal256 p s => .ok (.decimalB .w256 p s [])
  | .dictionary kt vt =>
    if dictKeySupported kt then
      if dictValueSupported vt then .ok (.dictB kt (dictBuiltValueType vt) [] [])
      else .error .unsupportedType
    else .error .unsupportedType
  | d => .ok (make_builder d batchSize)

/-- A finished immutable array: its type metadata and its logical slots. -/
structure FinishedArray (α : Type) where
  dtype : DataType
  entries : List (Option α)
deriving DecidableEq

/-- The DataType a builder's finish stamps on its output: the NullBuilder
yields a Null array, a simple builder yields its own concrete type, the
ConfiguredDecimalBuilder stamps its stored precision and scale (the
with_precision_and_scale call in its finish), and a dictionary builder
yields the dictionary type it was built with. -/
def finishDtype : ArrowBuilder α → DataType
  | .nullB _ => .null
  | .simpleB dt _ => dt
  | .decimalB .w128 p s _ => .decimal128 p s
  | .decimalB .w256 p s _ => .decimal256 p s
  | .dictB kt vt _ _ => .dictionary kt vt

/-- finish_cloned: produce the finished array without touching the
builder. -/
def finish_cloned (b : ArrowBuilder α) : FinishedArray α :=
  ⟨finishDtype b, b.entries⟩

/-- finish: produce the finished array and the post-finish builder. The
NullBuilder's finish just delegates to finish_cloned and keeps its length;
every other builder's finish drains its accumulated content (the arrow
builders reset to empty). -/
def finish : ArrowBuilder α → FinishedArray α × ArrowBuilder α
  | .nullB len => (finish_cloned (.nullB len), .nullB len)
  | .simpleB dt es => (⟨dt, es⟩, .simpleB dt [])
  | .decimalB w p s es => (⟨finishDtype (.decimalB w p s es), es⟩, .decimalB w p s [])
  | .dictB kt vt values keys => (⟨.dictionary kt vt, keys.map (dictLookup values)⟩, .dictB kt vt [] [])

/-- The DataTypes builder_extend dispatches to an implemented arm (the
complement of its unimplemented arms). -/
def extendSupported : DataType → Bool
  | .null => true
  | .decimal128 _ _ => true
  | .decimal256 _ _ => true
  | .dictionary kt vt => dictKeySupported kt && dictValueSupported vt
  | d => simpleDispatchSupported d

/-- The DataTypes builder_append_null dispatches to an implemented arm;
unlike builder_extend it has no Dictionary arm at all. -/
def appendNullSupported : DataType → Bool
  | .null => true
  | .decimal128 _ _ => true
  | .decimal256 _ _ => true
  | d => simpleDispatchSupported d

/-- The DataTypes new_array_builder can build (its only unimplemented arms
are the dictionary key and value dispatches; everything else reaches
make_builder). -/
def newBuilderSupported : DataType → Bool
  | .dictionary kt vt => dictKeySupported kt && dictValueSupported vt
  | _ => true

/-- The DataTypes whose builder finishes to exactly the input type
metadata: every supported type except a Dictionary with LargeUtf8 values,
which the factory builds as a StringDictionaryBuilder finishing to a
Dictionary with Utf8 values. -/
def metadataExact : DataType → Bool
  | .dictionary _ .largeUtf8 => false
  | _ => true

/-- An optional key stays inside the values list. -/
def keyInRange (values : List α) : Option Nat → Bool
  | none => true
  | some k => decide (k < values.length)

/-- Well-formedness of an interned dictionary: every stored key points
inside the values list. Every builder the source code constructs satisfies
this (fresh builders are empty and appends keep it). -/
def dictWF (values : List α) (keys : List (Option Nat)) : Bool :=
  keys.all (keyInRange values)

/-- Well-formedness of a builder: only the dictionary builder carries an
internal invariant. -/
def builderWF : ArrowBuilder α → Bool
  | .dictB _ _ values keys => dictWF values keys
  | _ => true

/-- An index is usable against a source array when the accesses the append
loop performs at it stay in bounds: the slot exists, and for a dictionary
array a valid slot's key points inside the values array. -/
def indexOk (a : ArrowArray α) (i : Nat) : Bool :=
  match a with
  | .nullArr len => decide (i < len)
  | .simple _ es => decide (i < es.length)
  | .dict _ _ keys values =>
    match keys.get? i with
    | none => false
    | some none => true
    | some (some k) => decide (k < values.length)

/-- Concrete representations of builder, source array and DataType agree:
the downcasts builder_extend performs for that DataType all succeed. For a
DataType outside the dispatch matrix no concrete representation exists. -/
def reprAgree (dt : DataType) (b : ArrowBuilder α) (a : ArrowArray α) : Bool :=
  match dt with
  | .null =>
    match b, a with
    | .nullB _, .nullArr _ => true
    | _, _ => false
  | .decimal128 _ _ =>
    match b, a with
    | .decimalB w _ _ _, .simple adt _ => decide (w = .w128) && decimalTypeMatches .w128 adt
    | _, _ => false
  | .decimal256 _ _ =>
    match b, a with
    | .decimalB w _ _ _, .simple adt _ => decide (w = .w256) && decimalTypeMatches .w256 adt
    | _, _ => false
  | .dictionary kt vt =>
    if dictKeySupported kt && dictValueSupported vt then
      match b, a with
      | .dictB bkt bvt _ _, .dict akt avt _ _ =>
        decide (bkt = kt) && decide (bvt = dictBuiltValueType vt) &&
          decide (akt = kt) && decide (avt = vt)
      | _, _ => false
    else false
  | d =>
    if simpleDispatchSupported d then
      match b, a with
      | .simpleB bdt _, .simple adt _ =>
        decide (eraseRepr bdt = eraseRepr d) && decide (eraseRepr adt = eraseRepr d)
      | _, _ => false
    else false

/-- Iterate builder_append_null the given number of times. -/
def appendNullN (dt : DataType) : Nat → ArrowBuilder α → Except BlazeError (ArrowBuilder α)
  | 0, b => .ok b
  | n + 1, b =>
    match builder_append_null dt b with
    | .ok b2 => appendNullN dt n b2
    | .error e => .error e

/-!
Embedding of ipc_stream.rs. A decoded record batch is abstracted to an
element of an arbitrary type; a segment is represented by the list of
batches its bytes decode to, and the external ScalaIterator of segments by
the list of segments not yet pulled.
-/

/-- State of an IpcReaderStream: the active RecordBatchReader (modelled by
the batches it has not yet yielded, or none when no reader is installed)
and the not-yet-pulled tail of the external segment iterator. -/
structure IpcReaderStream (β : Type) where
  reader : Option (List β)
  segments : List (List β)
deriving DecidableEq

/-- next_segment of ipc_stream.rs: when the external iterator is empty the
reader is set to none and false is returned; otherwise the next segment is
pulled, a fresh decoder over it is installed, and true is returned. -/
def next_segment : IpcReaderStream β → Bool × IpcReaderStream β
  | ⟨_, []⟩ => (false, ⟨none, []⟩)
  | ⟨_, s :: rest⟩ => (true, ⟨some s, rest⟩)

/-- The recursion of poll_next, with the reader and segment list as
explicit arguments: an installed reader with a batch left yields that
batch; otherwise next_segment is inlined (its two cases are the two empty
and two cons patterns) and on success poll_next retries itself, exactly as
the source does with return self.poll_next(cx). -/
def poll_next_go : Option (List β) → List (List β) → Option β × IpcReaderStream β
  | some (b :: bs), segs => (some b, ⟨some bs, segs⟩)
  | some [], [] => (none, ⟨none, []⟩)
  | none, [] => (none, ⟨none, []⟩)
  | some [], s :: rest => poll_next_go (some s) rest
  | none, s :: rest => poll_next_go (some s) rest

/-- poll_next of ipc_stream.rs (the Ok path; a decode error would abort the
step instead). -/
def poll_next (st : IpcReaderStream β) : Option β × IpcReaderStream β :=
  poll_next_go st.reader st.segments

/-- Number of nested poll_next invocations one step performs from a given
state (1 for the outermost call, plus 1 per self call taken after a
segment is pulled). -/
def poll_depth_go : Option (List β) → List (List β) → Nat
  | some (_ :: _), _ => 1
  | some [], [] => 1
  | none, [] => 1
  | some [], s :: rest => 1 + poll_depth_go (some s) rest
  | none, s :: rest => 1 + poll_depth_go (some s) rest

/-- Recursion depth of one poll_next step. -/
def poll_depth (st : IpcReaderStream β) : Nat :=
  poll_depth_go st.reader st.segments

/-- Poll the stream a given number of times, collecting every batch
emitted. -/
def polls : Nat → IpcReaderStream β → List β
  | 0, _ => []
  | n + 1, st =>
    match poll_next st with
    | (some b, st2) => b :: polls n st2
    | (none, st2) => polls n st2

/-- The batches a stream state has yet to emit: the remainder of the
active reader followed by the concatenation of the unread segments. -/
def streamRemaining (st : IpcReaderStream β) : List β :=
  (st.reader.getD []) ++ st.segments.flatten

/-!
Embedding of the ReadableByteChannelReader of ipc_stream.rs and its foreign
channel. The foreign ReadableByteChannel is modelled by the bytes it will
still deliver plus a count of how many times its close method has been
invoked; the reader holds only its closed flag, as in the source.
-/

/-- The foreign java ReadableByteChannel: pending bytes and the number of
times close() has been called on it. -/
structure ForeignChannel where
  pending : List Nat
  closeCount : Nat
deriving DecidableEq

/-- The byte source adapter: only a closed flag, as in the source. -/
structure ReadableByteChannelReader where
  closed : Bool
deriving DecidableEq

/-- close of ReadableByteChannelReader: invoke the foreign close exactly
once, only when not already closed. -/
def readerClose (r : ReadableByteChannelReader) (ch : ForeignChannel) :
    ReadableByteChannelReader × ForeignChannel :=
  if r.closed then (r, ch)
  else (⟨true⟩, ⟨ch.pending, ch.closeCount + 1⟩)

/-- The Drop impl of ReadableByteChannelReader: teardown just invokes
close (its result is discarded). -/
def readerDrop (r : ReadableByteChannelReader) (ch : ForeignChannel) :
    ReadableByteChannelReader × ForeignChannel :=
  readerClose r ch

/-- read of ReadableByteChannelReader for a buffer of the given capacity:
a closed reader reads zero bytes; otherwise the loop pulls from the
foreign channel until the buffer is full, or until the foreign side
signals end of data with a negative count, in which case the reader closes
itself; the bytes placed in the buffer are returned. -/
def readerRead (r : ReadableByteChannelReader) (ch : ForeignChannel) (bufLen : Nat) :
    Nat × ReadableByteChannelReader × ForeignChannel :=
  if r.closed then (0, r, ch)
  else
    if ch.pending.length < bufLen then
      (ch.pending.length, ⟨true⟩, ⟨[], ch.closeCount + 1⟩)
    else (bufLen, r, ⟨ch.pending.drop bufLen, ch.closeCount⟩)

/-- One external operation on the adapter: an explicit close, a teardown
(drop), or a read with a buffer of the given capacity. -/
inductive ReaderOp
  | close
  | teardown
  | read (bufLen : Nat)

/-- Apply one operation to the adapter and its channel. -/
def readerStep (s : ReadableByteChannelReader × ForeignChannel) (op : ReaderOp) :
    ReadableByteChannelReader × ForeignChannel :=
  match op with
  | .close => readerClose s.1 s.2
  | .teardown => readerDrop s.1 s.2
  | .read bufLen =>
    let t := readerRead s.1 s.2 bufLen
    t.2

/-- Run a sequence of operations on the adapter. -/
def readerRun (s : ReadableByteChannelReader × ForeignChannel) :
    List ReaderOp → ReadableByteChannelReader × ForeignChannel
  | [] => s
  | op :: rest => readerRun (readerStep s op) rest

/-!
Embedding of get_channel_reader and get_file_segment_reader of
ipc_stream.rs. A byte source is a byte list; read_one_batch lives in
crate::io, outside src/, so batch decoding is kept as an explicit
deterministic parameter consuming the byte source.
-/

/-- The bytes a file segment source delivers: the file is opened, the
cursor seeks to the offset, and reads are bounded to exactly the length
(Read::take), after which end of data is reported even if the file has
more bytes. -/
def fileSegmentInput (fileBytes : List Nat) (offset length : Nat) : List Nat :=
  (fileBytes.drop offset).take length

/-- A RecordBatchReader: its byte source, its optional expected schema and
its compression flag. -/
structure RecordBatchReader (σ : Type) where
  input : List Nat
  schema : Option σ
  compress : Bool
deriving DecidableEq

/-- get_channel_reader: wrap the channel bytes in a RecordBatchReader with
the given compression flag. -/
def get_channel_reader (schema : Option σ) (channelBytes : List Nat) (compressed : Bool) :
    RecordBatchReader σ :=
  ⟨channelBytes, schema, compressed⟩

/-- get_file_segment_reader: open the file, seek to the offset, bound
reads to the length, and decode with compression forced on. -/
def get_file_segment_reader (schema : Option σ) (fileBytes : List Nat)
    (offset length : Nat) : RecordBatchReader σ :=
  ⟨fileSegmentInput fileBytes offset length, schema, true⟩

/-- The batches a RecordBatchReader yields under a decode step (modelled
from the spec: read_one_batch of crate::io, not under src/, deterministically
decodes the next self-describing batch and the remaining bytes from the
byte source, the schema and the compression flag, or reports clean end of
data); fuel bounds the number of next_batch calls. -/
def readerBatches (decode : Option σ → Bool → List Nat → Option (γ × List Nat)) :
    Nat → RecordBatchReader σ → List γ
  | 0, _ => []
  | fuel + 1, r =>
    match decode r.schema r.compress r.input with
    | none => []
    | some (b, rest) => b :: readerBatches decode fuel ⟨rest, r.schema, r.compress⟩

/-! Helper lemmas about list access, shared by the claim proofs. -/

theorem listGetDOfGet {l : List γ} {d : γ} : ∀ {i : Nat} {e : γ},
    l.get? i = some e → l.getD i d = e := by
  induction l with
  | nil => intro i e h; cases h
  | cons x xs ih =>
    intro i e h
    cases i with
    | zero =>
      have h2 : some x = some e := h
      cases h2
      rfl
    | succ j =>
      have h2 : xs.get? j = some e := h
      exact ih h2

theorem listGetOfLt {l : List γ} (d : γ) : ∀ {i : Nat},
    i < l.length → l.get? i = some (l.getD i d) := by
  induction l with
  | nil => intro i h; simp at h
  | cons x xs ih =>
    intro i h
    cases i with
    | zero => simp [List.get?, List.getD]
    | succ j =>
      simp only [List.length_cons, Nat.succ_lt_succ_iff] at h
      simpa [List.get?, List.getD] using ih h

theorem listLtOfGet {l : List γ} : ∀ {i : Nat} {e : γ},
    l.get? i = some e → i < l.length := by
  induction l with
  | nil => intro i e h; cases h
  | cons x xs ih =>
    intro i e h
    cases i with
    | zero => simp
    | succ j =>
      have h2 : xs.get? j = some e := h
      exact Nat.succ_lt_succ (ih h2)

theorem listGetAppendLeft {l l2 : List γ} : ∀ {i : Nat},
    i < l.length → (l ++ l2).get? i = l.get? i := by
  induction l with
  | nil => intro i h; simp at h
  | cons x xs ih =>
    intro i h
    cases i with
    | zero => rfl
    | succ j =>
      simp only [List.length_cons, Nat.succ_lt_succ_iff] at h
      have h2 : (xs ++ l2).get? j = xs.get? j := ih h
      exact h2

theorem listGetConcatLength (l : List γ) (v : γ) : (l ++ [v]).get? l.length = some v := by
  induction l with
  | nil => rfl
  | cons x xs ih => exact ih

theorem listGetMap (f : γ → δ) : ∀ (l : List γ) (i : Nat),
    (l.map f).get? i = (l.get? i).map f := by
  intro l
  induction l with
  | nil => intro i; simp [List.get?]
  | cons x xs ih =>
    intro i
    cases i with
    | zero => rfl
    | succ j => exact ih j

theorem listMapAllNone {f : Nat → Option γ} (hf : ∀ i, f i = none) :
    ∀ idx : List Nat, idx.map f = List.replicate idx.length none := by
  intro idx
  induction idx with
  | nil => simp
  | cons i rest ih => simp [hf, ih, List.replicate_succ]

/-! Behaviour of the extendSimple loop. -/

theorem extendSimple_ok {aes : List (Option α)} : ∀ (idx : List Nat) (bes : List (Option α)),
    (∀ i ∈ idx, i < aes.length) →
    extendSimple bes aes idx = .ok (bes ++ idx.map fun i => aes.getD i none) := by
  intro idx
  induction idx with
  | nil => intro bes _; simp [extendSimple]
  | cons i rest ih =>
    intro bes h
    have hi : i < aes.length := h i (List.mem_cons_self i rest)
    have hget := listGetOfLt (l := aes) none hi
    have hrest : ∀ j ∈ rest, j < aes.length := fun j hj => h j (List.mem_cons_of_mem i hj)
    simp only [extendSimple, hget]
    rw [ih (bes ++ [aes.getD i none]) hrest]
    simp

/-! Behaviour of the dictionary interning append. -/

theorem listMapCongr {f g : γ → δ} : ∀ {l : List γ},
    (∀ x ∈ l, f x = g x) → l.map f = l.map g := by
  intro l
  induction l with
  | nil => intro _; rfl
  | cons x xs ih =>
    intro h
    simp only [List.map_cons]
    rw [h x (List.mem_cons_self x xs), ih fun y hy => h y (List.mem_cons_of_mem x hy)]

theorem dictIndexOf_some [DecidableEq α] {values : List α} {v : α} : ∀ {k : Nat},
    dictIndexOf values v = some k → values.get? k = some v := by
  induction values with
  | nil => intro k h; cases h
  | cons w rest ih =>
    intro k h
    by_cases hw : w = v
    · simp only [dictIndexOf, if_pos hw] at h
      cases h
      simpa using hw
    · simp only [dictIndexOf, if_neg hw, Option.map_eq_some'] at h
      obtain ⟨k0, hk0, rfl⟩ := h
      exact ih hk0

theorem dictAppendValue_spec [DecidableEq α] {values : List α} {keys : List (Option Nat)}
    {v : α} (hwf : dictWF values keys = true) :
    dictWF (dictAppendValue values keys v).1 (dictAppendValue values keys v).2 = true ∧
      (dictAppendValue values keys v).2.map (dictLookup (dictAppendValue values keys v).1) =
        keys.map (dictLookup values) ++ [some v] := by
  rw [dictWF, List.all_eq_true] at hwf
  cases h : dictIndexOf values v with
  | some k =>
    have hget := dictIndexOf_some h
    have hk : k < values.length := listLtOfGet hget
    constructor
    · rw [dictAppendValue, h, dictWF, List.all_eq_true]
      intro k? hk?
      rcases List.mem_append.mp hk? with hmem | hmem
      · exact hwf k? hmem
      · simp only [List.mem_singleton] at hmem
        subst hmem
        simpa [keyInRange] using hk
    · rw [dictAppendValue, h]
      rw [List.map_append]
      simp only [List.map_cons, List.map_nil, dictLookup]
      rw [hget]
  | none =>
    constructor
    · rw [dictAppendValue, h, dictWF, List.all_eq_true]
      intro k? hk?
      rcases List.mem_append.mp hk? with hmem | hmem
      · have := hwf k? hmem
        cases k? with
        | none => rfl
        | some k0 =>
          simp only [keyInRange, decide_eq_true_eq] at this ⊢
          simp only [List.length_append, List.length_cons, List.length_nil]
          omega
      · simp only [List.mem_singleton] at hmem
        subst hmem
        simp [keyInRange]
    · rw [dictAppendValue, h]
      rw [List.map_append]
      have h1 : keys.map (dictLookup (values ++ [v])) = keys.map (dictLookup values) := by
        apply listMapCongr
        intro k? hk?
        cases k? with
        | none => rfl
        | some k0 =>
          have hr := hwf (some k0) hk?
          simp only [keyInRange, decide_eq_true_eq] at hr
          simp only [dictLookup]
          exact listGetAppendLeft hr
      rw [h1]
      simp only [List.map_cons, List.map_nil, dictLookup]
      rw [listGetConcatLength]

theorem listGetExists {l : List γ} : ∀ {i : Nat}, i < l.length → ∃ e, l.get? i = some e := by
  induction l with
  | nil => intro i h; simp at h
  | cons x xs ih =>
    intro i h
    cases i with
    | zero => exact ⟨x, rfl⟩
    | succ j =>
      simp only [List.length_cons, Nat.succ_lt_succ_iff] at h
      exact ih h

theorem extendDict_ok [DecidableEq α] {akeys : List (Option Nat)} {avalues : List α} :
    ∀ (idx : List Nat) (values : List α) (keys : List (Option Nat)),
    dictWF values keys = true →
    (∀ i ∈ idx, ∃ k?, akeys.get? i = some k? ∧ keyInRange avalues k? = true) →
    ∃ v2 k2, extendDict values keys akeys avalues idx = .ok (v2, k2) ∧
      dictWF v2 k2 = true ∧
      k2.map (dictLookup v2) =
        keys.map (dictLookup values) ++
          idx.map fun i => dictLookup avalues (akeys.getD i none) := by
  intro idx
  induction idx with
  | nil =>
    intro values keys hwf _
    exact ⟨values, keys, rfl, hwf, by simp⟩
  | cons i rest ih =>
    intro values keys hwf hidx
    obtain ⟨k?, hget, hrange⟩ := hidx i (List.mem_cons_self i rest)
    have hrest : ∀ j ∈ rest, ∃ k?, akeys.get? j = some k? ∧ keyInRange avalues k? = true :=
      fun j hj => hidx j (List.mem_cons_of_mem i hj)
    have hgetD : akeys.getD i none = k? := listGetDOfGet hget
    cases k? with
    | none =>
      have hwf2 : dictWF values (keys ++ [none]) = true := by
        rw [dictWF, List.all_eq_true] at hwf ⊢
        intro x hx
        rcases List.mem_append.mp hx with hm | hm
        · exact hwf x hm
        · simp only [List.mem_singleton] at hm
          subst hm
          rfl
      obtain ⟨v2, k2, hrun, hwf3, hlog⟩ := ih values (keys ++ [none]) hwf2 hrest
      refine ⟨v2, k2, ?_, hwf3, ?_⟩
      · simp only [extendDict, hget]
        exact hrun
      · rw [hlog]
        simp only [List.map_cons, hgetD, List.map_append]
        simp [dictLookup, List.append_assoc]
    | some k =>
      simp only [keyInRange, decide_eq_true_eq] at hrange
      obtain ⟨v, hv⟩ := listGetExists hrange
      have hstep := @dictAppendValue_spec _ _ values keys v hwf
      obtain ⟨v2, k2, hrun, hwf3, hlog⟩ :=
        ih (dictAppendValue values keys v).1 (dictAppendValue values keys v).2 hstep.1 hrest
      refine ⟨v2, k2, ?_, hwf3, ?_⟩
      · simp only [extendDict, hget, hv]
        exact hrun
      · rw [hlog, hstep.2]
        simp only [List.map_cons, hgetD, dictLookup, hv]
        simp [List.append_assoc]

theorem replicateGetDNone : ∀ (m i : Nat), (List.replicate m (none : Option γ)).getD i none = none := by
  intro m
  induction m with
  | zero => intro i; rfl
  | succ k ih =>
    intro i
    cases i with
    | zero => rfl
    | succ j => exact ih j

theorem builder_extend_simple_eq [DecidableEq α] {dt : DataType}
    (hsup : simpleDispatchSupported dt = true) (b : ArrowBuilder α) (a : ArrowArray α)
    (idx : List Nat) : builder_extend dt b a idx = extendSimpleCase dt b a idx := by
  cases dt <;> first
    | (simp only [builder_extend]; rw [if_pos hsup])
    | exact absurd hsup (by simp [simpleDispatchSupported])

/-- Core of claim C1: when the concrete representations of builder, source
array and DataType agree, the builder is well formed and the indices stay
in bounds, builder_extend succeeds and appends exactly the selected
logical slots (value where the source is valid, null marker otherwise), in
index order. -/
theorem builder_extend_core [DecidableEq α] (dt : DataType) (b : ArrowBuilder α)
    (a : ArrowArray α) (idx : List Nat) (hrepr : reprAgree dt b a = true)
    (hwf : builderWF b = true) (hidx : ∀ i ∈ idx, indexOk a i = true) :
    ∃ b2, builder_extend dt b a idx = .ok b2 ∧
      b2.entries = b.entries ++ idx.map fun i => a.logical.getD i none := by
  cases dt
  case null =>
    cases b <;> cases a <;> simp [reprAgree] at hrepr
    all_goals (
      rename_i n m
      refine ⟨.nullB (n + idx.length), rfl, ?_⟩
      simp only [ArrowBuilder.entries, ArrowArray.logical]
      rw [listMapAllNone (fun i => replicateGetDNone m i) idx, List.replicate_add])
  case decimal128 p s =>
    cases b <;> cases a <;> simp [reprAgree] at hrepr
    all_goals (
      rename_i w p2 s2 bes adt aes
      obtain ⟨hw, hadt⟩ := hrepr
      subst hw
      have hbnd : ∀ i ∈ idx, i < aes.length := by
        intro i hi
        have h2 := hidx i hi
        simpa [indexOk] using h2
      refine ⟨.decimalB .w128 p2 s2 (bes ++ idx.map fun i => aes.getD i none), ?_, ?_⟩
      · simp [builder_extend, extendDecimalCase, hadt, extendSimple_ok idx bes hbnd,
          Except.map]
      · simp [ArrowBuilder.entries, ArrowArray.logical])
  case decimal256 p s =>
    cases b <;> cases a <;> simp [reprAgree] at hrepr
    all_goals (
      rename_i w p2 s2 bes adt aes
      obtain ⟨hw, hadt⟩ := hrepr
      subst hw
      have hbnd : ∀ i ∈ idx, i < aes.length := by
        intro i hi
        have h2 := hidx i hi
        simpa [indexOk] using h2
      refine ⟨.decimalB .w256 p2 s2 (bes ++ idx.map fun i => aes.getD i none), ?_, ?_⟩
      · simp [builder_extend, extendDecimalCase, hadt, extendSimple_ok idx bes hbnd,
          Except.map]
      · simp [ArrowBuilder.entries, ArrowArray.logical])
  case dictionary kt vt =>
    cases b <;> cases a
    all_goals (
      first
      | (rename_i bkt bvt values keys akt avt akeys avalues
         simp only [reprAgree] at hrepr
         by_cases hc : (dictKeySupported kt && dictValueSupported vt) = true
         case neg =>
           rw [if_neg hc] at hrepr
           cases hrepr
         rw [if_pos hc] at hrepr
         simp only [Bool.and_eq_true] at hc
         obtain ⟨hk, hv⟩ := hc
         simp only [Bool.and_eq_true, decide_eq_true_eq] at hrepr
         obtain ⟨⟨⟨hbkt, hbvt⟩, hakt⟩, havt⟩ := hrepr
         simp only [builderWF] at hwf
         have hsrc : ∀ i ∈ idx, ∃ k?, akeys.get? i = some k? ∧ keyInRange avalues k? = true := by
           intro i hi
           have h2 := hidx i hi
           simp only [indexOk] at h2
           cases hg : akeys.get? i with
           | none => rw [hg] at h2; cases h2
           | some k? =>
             rw [hg] at h2
             cases k? with
             | none => exact ⟨none, rfl, rfl⟩
             | some k => exact ⟨some k, rfl, by simpa [keyInRange] using h2⟩
         obtain ⟨v2, k2, hrun, hwf3, hlog⟩ := extendDict_ok idx values keys hwf hsrc
         refine ⟨.dictB bkt bvt v2 k2, ?_, ?_⟩
         · simp [builder_extend, extendDictCase, hk, hv, hrun, Except.map,
             hbkt, hbvt, hakt, havt]
         · simp only [ArrowBuilder.entries, ArrowArray.logical]
           rw [hlog]
           congr 1
           apply listMapCongr
           intro i hi
           obtain ⟨k?, hg, _⟩ := hsrc i hi
           have h2 : (akeys.map (dictLookup avalues)).get? i = some (dictLookup avalues k?) := by
             rw [listGetMap, hg]
             rfl
           rw [listGetDOfGet h2, listGetDOfGet hg])
      | (exfalso
         revert hrepr
         simp [reprAgree]))
  case time32 u =>
    cases u <;> (
      cases b <;> cases a <;> simp [reprAgree, simpleDispatchSupported] at hrepr
      all_goals (
        rename_i bdt bes adt aes
        obtain ⟨hb, ha⟩ := hrepr
        have hbnd : ∀ i ∈ idx, i < aes.length := by
          intro i hi
          have h2 := hidx i hi
          simpa [indexOk] using h2
        refine ⟨.simpleB bdt (bes ++ idx.map fun i => aes.getD i none), ?_, ?_⟩
        · rw [builder_extend_simple_eq (by simp [simpleDispatchSupported])]
          simp only [extendSimpleCase]
          rw [if_pos (And.intro hb ha), extendSimple_ok idx bes hbnd]
          rfl
        · simp [ArrowBuilder.entries, ArrowArray.logical]))
  case time64 u =>
    cases u <;> (
      cases b <;> cases a <;> simp [reprAgree, simpleDispatchSupported] at hrepr
      all_goals (
        rename_i bdt bes adt aes
        obtain ⟨hb, ha⟩ := hrepr
        have hbnd : ∀ i ∈ idx, i < aes.length := by
          intro i hi
          have h2 := hidx i hi
          simpa [indexOk] using h2
        refine ⟨.simpleB bdt (bes ++ idx.map fun i => aes.getD i none), ?_, ?_⟩
        · rw [builder_extend_simple_eq (by simp [simpleDispatchSupported])]
          simp only [extendSimpleCase]
          rw [if_pos (And.intro hb ha), extendSimple_ok idx bes hbnd]
          rfl
        · simp [ArrowBuilder.entries, ArrowArray.logical]))
  all_goals (
    cases b <;> cases a <;> simp [reprAgree, simpleDispatchSupported] at hrepr
    all_goals (
      rename_i bdt bes adt aes
      obtain ⟨hb, ha⟩ := hrepr
      have hbnd : ∀ i ∈ idx, i < aes.length := by
        intro i hi
        have h2 := hidx i hi
        simpa [indexOk] using h2
      refine ⟨.simpleB bdt (bes ++ idx.map fun i => aes.getD i none), ?_, ?_⟩
      · rw [builder_extend_simple_eq (by simp [simpleDispatchSupported])]
        simp only [extendSimpleCase]
        rw [if_pos (And.intro hb ha), extendSimple_ok idx bes hbnd]
        rfl
      · simp [ArrowBuilder.entries, ArrowArray.logical]))

/-- C1: for every builder, source array and DataType whose concrete
representations agree (the builder well formed, the indices in range of
the source), builder_extend succeeds and appends exactly
indices.length elements to the builder, in the order given by indices
(duplicates and arbitrary order permitted): for each index, the source
value is appended where the source is valid there and a null marker is
appended otherwise. -/
theorem claim_C1_builder_extend_appends [DecidableEq α] (dt : DataType)
    (b : ArrowBuilder α) (a : ArrowArray α) (idx : List Nat)
    (hrepr : reprAgree dt b a = true) (hwf : builderWF b = true)
    (hidx : ∀ i ∈ idx, indexOk a i = true) :
    ∃ b2, builder_extend dt b a idx = .ok b2 ∧
      b2.entries = b.entries ++ (idx.map fun i => a.logical.getD i none) ∧
      b2.entries.length = b.entries.length + idx.length := by
  obtain ⟨b2, hrun, hent⟩ := builder_extend_core dt b a idx hrepr hwf hidx
  refine ⟨b2, hrun, hent, ?_⟩
  rw [hent]
  simp

/-- Witness for C1 at the spec example: indices [0,2,4] over a 5-element
int32 source with validity pattern valid, null, valid, null, valid append
exactly 3 elements, all valid, in that order, growing the builder by 3. -/
theorem claim_C1_witness :
    ∃ b2, builder_extend .int32 (ArrowBuilder.simpleB .int32 ([] : List (Option Nat)))
        (ArrowArray.simple .int32 [some 1, none, some 2, none, some 3]) [0, 2, 4] = .ok b2 ∧
      b2.entries = [some 1, some 2, some 3] ∧ b2.entries.length = 0 + 3 := by
  obtain ⟨b2, hrun, hent, hlen⟩ :=
    claim_C1_builder_extend_appends DataType.int32
      (ArrowBuilder.simpleB .int32 ([] : List (Option Nat)))
      (ArrowArray.simple .int32 [some 1, none, some 2, none, some 3]) [0, 2, 4]
      (by decide) (by decide) (by decide)
  refine ⟨b2, hrun, ?_, by simpa using hlen⟩
  rw [hent]
  decide

/-- C5: for Dictionary columns builder_extend resolves each valid index to
the dictionary value referenced by the key at that index in the source
values array and appends that resolved value through the destination
builder's own interning, never the raw key code; logical values and null
positions are preserved even when key codes differ. -/
theorem claim_C5_dictionary_resolves_values [DecidableEq α]
    (kt vt bkt bvt akt avt : DataType) (values avalues : List α)
    (keys akeys : List (Option Nat)) (idx : List Nat)
    (hrepr : reprAgree (.dictionary kt vt) (.dictB bkt bvt values keys)
      (.dict akt avt akeys avalues) = true)
    (hwf : dictWF values keys = true)
    (hidx : ∀ i ∈ idx, indexOk (ArrowArray.dict akt avt akeys avalues) i = true) :
    ∃ values2 keys2,
      builder_extend (.dictionary kt vt) (ArrowBuilder.dictB bkt bvt values keys)
          (ArrowArray.dict akt avt akeys avalues) idx = .ok (.dictB bkt bvt values2 keys2) ∧
      keys2.map (dictLookup values2) =
        keys.map (dictLookup values) ++
          (idx.map fun i => dictLookup avalues (akeys.getD i none)) := by
  simp only [reprAgree] at hrepr
  by_cases hc : (dictKeySupported kt && dictValueSupported vt) = true
  case neg =>
    rw [if_neg hc] at hrepr
    cases hrepr
  rw [if_pos hc] at hrepr
  simp only [Bool.and_eq_true] at hc
  obtain ⟨hk, hv⟩ := hc
  simp only [Bool.and_eq_true, decide_eq_true_eq] at hrepr
  obtain ⟨⟨⟨hbkt, hbvt⟩, hakt⟩, havt⟩ := hrepr
  have hsrc : ∀ i ∈ idx, ∃ k?, akeys.get? i = some k? ∧ keyInRange avalues k? = true := by
    intro i hi
    have h2 := hidx i hi
    simp only [indexOk] at h2
    cases hg : akeys.get? i with
    | none => rw [hg] at h2; cases h2
    | some k? =>
      rw [hg] at h2
      cases k? with
      | none => exact ⟨none, rfl, rfl⟩
      | some k => exact ⟨some k, rfl, by simpa [keyInRange] using h2⟩
  obtain ⟨v2, k2, hrun, hwf3, hlog⟩ := extendDict_ok idx values keys hwf hsrc
  refine ⟨v2, k2, ?_, hlog⟩
  simp [builder_extend, extendDictCase, hk, hv, hrun, Except.map, hbkt, hbvt, hakt, havt]

/-- Witness for C5: the source row with key 1 resolves to the value
interned at 1 in the source and is appended as that logical value; the
destination assigns its own key codes (here 0 where the source used 1),
yet the logical content and null positions match. -/
theorem claim_C5_witness :
    ∃ values2 keys2,
      builder_extend (.dictionary .int32 .utf8)
          (ArrowBuilder.dictB .int32 .utf8 ([] : List Nat) [])
          (ArrowArray.dict .int32 .utf8 [some 1, none, some 0] [10, 20]) [0, 1, 2] =
        .ok (.dictB .int32 .utf8 values2 keys2) ∧
      keys2.map (dictLookup values2) = [some 20, none, some 10] := by
  obtain ⟨v2, k2, hrun, hlog⟩ :=
    claim_C5_dictionary_resolves_values DataType.int32 .utf8 .int32 .utf8 .int32 .utf8
      ([] : List Nat) [10, 20] [] [some 1, none, some 0] [0, 1, 2]
      (by decide) (by decide) (by decide)
  refine ⟨v2, k2, hrun, ?_⟩
  rw [hlog]
  decide

/-! Unsupported DataTypes fault with UnsupportedType at every dispatch
site. -/

theorem builder_extend_unsupported [DecidableEq α] {dt : DataType}
    (h : extendSupported dt = false) (b : ArrowBuilder α) (a : ArrowArray α)
    (idx : List Nat) : builder_extend dt b a idx = .error .unsupportedType := by
  cases dt
  case dictionary kt vt =>
    rw [extendSupported] at h
    simp only [builder_extend, extendDictCase]
    cases hk : dictKeySupported kt with
    | false => simp [hk]
    | true =>
      rw [hk] at h
      simp only [Bool.true_and] at h
      simp [hk, h]
  all_goals (simp [extendSupported] at h; try simp [builder_extend, h])

theorem builder_append_null_unsupported {dt : DataType}
    (h : appendNullSupported dt = false) (b : ArrowBuilder α) :
    builder_append_null dt b = .error .unsupportedType := by
  cases dt
  all_goals (
    simp [appendNullSupported, simpleDispatchSupported] at h
    try simp [builder_append_null, simpleDispatchSupported, h]
    try simp [builder_append_null, simpleDispatchSupported])

theorem new_array_builder_unsupported {dt : DataType}
    (h : newBuilderSupported dt = false) (cap : Nat) :
    new_array_builder (α := α) dt cap = .error .unsupportedType := by
  cases dt
  case dictionary kt vt =>
    rw [newBuilderSupported] at h
    simp only [new_array_builder]
    cases hk : dictKeySupported kt with
    | false => simp [hk]
    | true =>
      rw [hk] at h
      simp only [Bool.true_and] at h
      simp [hk, h]
  all_goals (simp [newBuilderSupported] at h)

theorem new_array_builder_unsupported_is_dictionary {dt : DataType}
    (h : newBuilderSupported dt = false) :
    ∃ kt vt, dt = .dictionary kt vt ∧
      (dictKeySupported kt = false ∨ dictValueSupported vt = false) := by
  cases dt
  case dictionary kt vt =>
    refine ⟨kt, vt, rfl, ?_⟩
    rw [newBuilderSupported] at h
    cases hk : dictKeySupported kt with
    | false => exact Or.inl rfl
    | true =>
      rw [hk] at h
      simp only [Bool.true_and] at h
      exact Or.inr h
  all_goals (simp [newBuilderSupported] at h)

/-- C6: the DataType dispatch is a closed world: any combination outside
the supported matrix makes builder_extend, builder_append_null and
new_array_builder raise the UnsupportedType fault at dispatch time, for
every builder, array and capacity (no silent default or coercion); for the
factory the only combinations outside the matrix are Dictionary types with
an unsupported key or value type. Each function is total on DataType, so
every combination routes to exactly one arm of its match. -/
theorem claim_C6_closed_dispatch (α : Type) [DecidableEq α] (dt : DataType) :
    (extendSupported dt = false →
      ∀ (b : ArrowBuilder α) (a : ArrowArray α) (idx : List Nat),
        builder_extend dt b a idx = .error .unsupportedType) ∧
    (appendNullSupported dt = false →
      ∀ b : ArrowBuilder α, builder_append_null dt b = .error .unsupportedType) ∧
    (newBuilderSupported dt = false →
      ∀ cap : Nat, new_array_builder (α := α) dt cap = .error .unsupportedType) ∧
    (newBuilderSupported dt = false →
      ∃ kt vt, dt = .dictionary kt vt ∧
        (dictKeySupported kt = false ∨ dictValueSupported vt = false)) :=
  ⟨fun h b a idx => builder_extend_unsupported h b a idx,
   fun h b => builder_append_null_unsupported h b,
   fun h cap => new_array_builder_unsupported h cap,
   fun h => new_array_builder_unsupported_is_dictionary h⟩

/-- Witness for C6 at a Dictionary with Utf8 keys (outside the integer key
matrix): all three dispatch sites fault with UnsupportedType. -/
theorem claim_C6_witness :
    builder_extend (.dictionary .utf8 .utf8) (ArrowBuilder.nullB (α := Nat) 0)
        (ArrowArray.nullArr 0) [] = .error .unsupportedType ∧
    builder_append_null (.dictionary .utf8 .utf8) (ArrowBuilder.nullB (α := Nat) 0) =
      .error .unsupportedType ∧
    new_array_builder (α := Nat) (.dictionary .utf8 .utf8) 4 = .error .unsupportedType ∧
    (∃ kt vt, DataType.dictionary DataType.utf8 DataType.utf8 = .dictionary kt vt ∧
      (dictKeySupported kt = false ∨ dictValueSupported vt = false)) := by
  obtain ⟨h1, h2, h3, h4⟩ := claim_C6_closed_dispatch Nat (.dictionary .utf8 .utf8)
  exact ⟨h1 (by decide) _ _ _, h2 (by decide) _, h3 (by decide) 4, h4 (by decide)⟩

/-! Behaviour of builder_append_null on supported DataTypes. -/

theorem builder_append_null_simpleB {dt bdt : DataType}
    (hsup : simpleDispatchSupported dt = true) (hb : eraseRepr bdt = eraseRepr dt)
    (es : List (Option α)) :
    builder_append_null dt (.simpleB bdt es) = .ok (.simpleB bdt (es ++ [none])) := by
  cases dt <;> first
    | (simp only [builder_append_null]
       rw [if_pos hsup]
       simp [hb])
    | exact absurd hsup (by simp [simpleDispatchSupported])

theorem appendNullN_step (d : DataType) {f : List (Option α) → ArrowBuilder α}
    (hf : ∀ es, builder_append_null d (f es) = .ok (f (es ++ [none]))) :
    ∀ (n : Nat) (es : List (Option α)),
      appendNullN d n (f es) = .ok (f (es ++ List.replicate n none)) := by
  intro n
  induction n with
  | zero => intro es; simp [appendNullN]
  | succ m ih =>
    intro es
    simp only [appendNullN, hf]
    rw [ih]
    simp [List.replicate_succ, List.append_assoc]

/-- C4 (amended): for every LogicalType inside builder_append_null's
dispatch matrix (which excludes Dictionary types, unlike new_array_builder
and builder_extend), each call appends exactly one null marker without
consuming any source value, so N calls on a fresh builder followed by
finish produce a column of length N that is entirely null. -/
theorem claim_C4_append_null_supported (α : Type) (dt : DataType)
    (h : appendNullSupported dt = true) (n cap : Nat) :
    ∃ b0 bn : ArrowBuilder α, new_array_builder dt cap = .ok b0 ∧
      appendNullN dt n b0 = .ok bn ∧
      bn.entries = List.replicate n none ∧
      (finish bn).1.entries = List.replicate n none ∧
      (finish bn).1.entries.length = n := by
  cases dt
  case null =>
    refine ⟨.nullB 0, .nullB n, rfl, ?_, ?_, ?_, ?_⟩
    · have hstep := appendNullN_step .null
        (f := fun es : List (Option α) => ArrowBuilder.nullB es.length)
        (by intro es; simp [builder_append_null]) n []
      simpa using hstep
    · simp [ArrowBuilder.entries]
    · simp [finish, finish_cloned, finishDtype, ArrowBuilder.entries]
    · simp [finish, finish_cloned, finishDtype, ArrowBuilder.entries]
  case decimal128 p s =>
    refine ⟨.decimalB .w128 p s [], .decimalB .w128 p s (List.replicate n none), rfl, ?_, ?_, ?_, ?_⟩
    · have hstep := appendNullN_step (.decimal128 p s)
        (f := ArrowBuilder.decimalB (α := α) .w128 p s)
        (by intro es; simp [builder_append_null]) n []
      simpa using hstep
    · simp [ArrowBuilder.entries]
    · simp [finish]
    · simp [finish]
  case decimal256 p s =>
    refine ⟨.decimalB .w256 p s [], .decimalB .w256 p s (List.replicate n none), rfl, ?_, ?_, ?_, ?_⟩
    · have hstep := appendNullN_step (.decimal256 p s)
        (f := ArrowBuilder.decimalB (α := α) .w256 p s)
        (by intro es; simp [builder_append_null]) n []
      simpa using hstep
    · simp [ArrowBuilder.entries]
    · simp [finish]
    · simp [finish]
  case dictionary kt vt => simp [appendNullSupported, simpleDispatchSupported] at h
  case time32 u =>
    cases u <;> first
      | (simp [appendNullSupported, simpleDispatchSupported] at h; done)
      | (refine ⟨_, _, rfl,
            appendNullN_step _ (builder_append_null_simpleB
              (by simp [simpleDispatchSupported]) rfl) n [], ?_, ?_, ?_⟩
         · simp [ArrowBuilder.entries]
         · simp [finish]
         · simp [finish])
  case time64 u =>
    cases u <;> first
      | (simp [appendNullSupported, simpleDispatchSupported] at h; done)
      | (refine ⟨_, _, rfl,
            appendNullN_step _ (builder_append_null_simpleB
              (by simp [simpleDispatchSupported]) rfl) n [], ?_, ?_, ?_⟩
         · simp [ArrowBuilder.entries]
         · simp [finish]
         · simp [finish])
  all_goals (
    refine ⟨_, _, rfl,
        appendNullN_step _ (builder_append_null_simpleB
          (by simp [simpleDispatchSupported]) rfl) n [], ?_, ?_, ?_⟩
    · simp [ArrowBuilder.entries]
    · simp [finish]
    · simp [finish])

/-- Counterexample to C4 as stated: Dictionary of Int32 keys and Utf8
values is a LogicalType the factory and the append engine fully support,
yet builder_append_null raises the UnsupportedType fault instead of
appending a null marker (its dispatch has no Dictionary arm). -/
theorem claim_C4_counterexample :
    newBuilderSupported (.dictionary .int32 .utf8) = true ∧
    extendSupported (.dictionary .int32 .utf8) = true ∧
    new_array_builder (α := Nat) (.dictionary .int32 .utf8) 0 =
      .ok (.dictB .int32 .utf8 [] []) ∧
    builder_append_null (.dictionary .int32 .utf8)
      (ArrowBuilder.dictB (α := Nat) .int32 .utf8 [] []) = .error .unsupportedType := by
  decide

/-- Witness for the amended C4 at Boolean with N = 3. -/
theorem claim_C4_witness :
    ∃ b0 bn : ArrowBuilder Nat, new_array_builder .boolean 0 = .ok b0 ∧
      appendNullN .boolean 3 b0 = .ok bn ∧
      bn.entries = List.replicate 3 none ∧
      (finish bn).1.entries = List.replicate 3 none ∧
      (finish bn).1.entries.length = 3 :=
  claim_C4_append_null_supported Nat .boolean (by decide) 3 0

/-- C3 (amended): for every LogicalType the factory supports whose
metadata round-trips (every supported type except a Dictionary with
LargeUtf8 value type), new_array_builder followed by an immediate finish
or finish_cloned yields a zero-length Array whose type metadata exactly
matches the input; in particular Decimal types carry exactly the precision
and scale supplied at construction, stamped at finish time. -/
theorem claim_C3_new_builder_finish (α : Type) (dt : DataType)
    (h1 : newBuilderSupported dt = true) (h2 : metadataExact dt = true) (cap : Nat) :
    ∃ b : ArrowBuilder α, new_array_builder dt cap = .ok b ∧
      finish b = (⟨dt, []⟩, b) ∧ finish_cloned b = ⟨dt, []⟩ ∧
      (finish b).1.entries.length = 0 := by
  cases dt
  case null => exact ⟨.nullB 0, rfl, rfl, rfl, rfl⟩
  case decimal128 p s => exact ⟨.decimalB .w128 p s [], rfl, rfl, rfl, rfl⟩
  case decimal256 p s => exact ⟨.decimalB .w256 p s [], rfl, rfl, rfl, rfl⟩
  case dictionary kt vt =>
    rw [newBuilderSupported] at h1
    simp only [Bool.and_eq_true] at h1
    obtain ⟨hk, hv⟩ := h1
    have hbv : dictBuiltValueType vt = vt := by
      cases vt <;> first | rfl | (simp [metadataExact] at h2)
    refine ⟨.dictB kt (dictBuiltValueType vt) [] [], ?_, ?_, ?_, ?_⟩
    · simp [new_array_builder, hk, hv]
    · simp [finish, hbv]
    · simp [finish_cloned, finishDtype, ArrowBuilder.entries, hbv]
    · simp [finish]
  all_goals exact ⟨.simpleB _ [], rfl, rfl, rfl, rfl⟩

/-- Counterexample to C3 as stated: for the LogicalType Dictionary of
Int32 keys and LargeUtf8 values the factory succeeds but builds a
StringDictionaryBuilder, so finish stamps value type Utf8 instead of
LargeUtf8 and the metadata does not match the input; and for a Dictionary
with an unsupported value type the factory faults instead of returning a
zero-length array. -/
theorem claim_C3_counterexample :
    new_array_builder (α := Nat) (.dictionary .int32 .largeUtf8) 0 =
      .ok (.dictB .int32 .utf8 [] []) ∧
    (finish (ArrowBuilder.dictB (α := Nat) .int32 .utf8 [] [])).1.dtype =
      .dictionary .int32 .utf8 ∧
    DataType.dictionary .int32 .utf8 ≠ .dictionary .int32 .largeUtf8 ∧
    new_array_builder (α := Nat) (.dictionary .int32 .boolean) 0 =
      .error .unsupportedType := by
  decide

/-- Witness for the amended C3 at Decimal128 with precision 10 and scale
2: the finished empty array carries exactly that precision and scale. -/
theorem claim_C3_witness :
    ∃ b : ArrowBuilder Nat, new_array_builder (.decimal128 10 2) 7 = .ok b ∧
      finish b = (⟨.decimal128 10 2, []⟩, b) ∧
      finish_cloned b = ⟨.decimal128 10 2, []⟩ ∧
      (finish b).1.entries.length = 0 :=
  claim_C3_new_builder_finish Nat (.decimal128 10 2) (by decide) (by decide) 7

/-- C10: the NullBuilder's finish delegates to finish_cloned and does not
consume or reset the accumulated length: finish returns exactly the
finish_cloned array together with the unchanged builder, two consecutive
finish calls return arrays of the same length, that length equals the
number of appends performed so far, and unlike the other builders (a
simple builder's finish, for instance, resets the accumulated entries)
the NullBuilder survives finish intact. -/
theorem claim_C10_null_finish_nondestructive (α : Type) (len n : Nat)
    (dt : DataType) (es : List (Option α)) :
    finish (ArrowBuilder.nullB (α := α) len) = (finish_cloned (.nullB len), .nullB len) ∧
    (finish ((finish (ArrowBuilder.nullB (α := α) len)).2)).1 =
      (finish (ArrowBuilder.nullB (α := α) len)).1 ∧
    (finish (ArrowBuilder.nullB (α := α) len)).1 = ⟨.null, List.replicate len none⟩ ∧
    appendNullN .null n (ArrowBuilder.nullB (α := α) 0) = .ok (.nullB n) ∧
    (finish (ArrowBuilder.nullB (α := α) n)).1.entries.length = n ∧
    (finish (ArrowBuilder.simpleB dt es)).2 = .simpleB dt [] := by
  refine ⟨rfl, rfl, rfl, ?_,
    by simp [finish, finish_cloned, ArrowBuilder.entries], rfl⟩
  have hstep := appendNullN_step .null
    (f := fun es : List (Option α) => ArrowBuilder.nullB es.length)
    (by intro es; simp [builder_append_null]) n []
  simpa using hstep

/-! Behaviour of the segment sequence reader. -/

theorem poll_next_go_nil : ∀ (segs : List (List β)) (r : Option (List β)),
    r.getD [] ++ segs.flatten = [] → poll_next_go r segs = (none, ⟨none, []⟩) := by
  intro segs
  induction segs with
  | nil =>
    intro r h
    cases r with
    | none => rfl
    | some l =>
      have h2 : l = [] := by simpa using h
      subst h2
      rfl
  | cons s rest ih =>
    intro r h
    simp only [List.flatten_cons, List.append_eq_nil] at h
    obtain ⟨h1, hs, hrest⟩ := h
    have hnext : poll_next_go (some s) rest = (none, ⟨none, []⟩) := by
      apply ih (some s)
      simp [hs, hrest]
    cases r with
    | none => exact hnext
    | some l =>
      simp only [Option.getD] at h1
      subst h1
      exact hnext

theorem poll_next_go_cons : ∀ (segs : List (List β)) (r : Option (List β)) (b : β)
    (rest2 : List β), r.getD [] ++ segs.flatten = b :: rest2 →
    ∃ st2, poll_next_go r segs = (some b, st2) ∧ streamRemaining st2 = rest2 := by
  intro segs
  induction segs with
  | nil =>
    intro r b rest2 h
    cases r with
    | none => simp at h
    | some l =>
      simp at h
      subst h
      exact ⟨⟨some rest2, []⟩, rfl, by simp [streamRemaining]⟩
  | cons s rest ih =>
    intro r b rest2 h
    cases r with
    | none =>
      have h2 : (some s).getD [] ++ rest.flatten = b :: rest2 := by simpa using h
      obtain ⟨st2, hp, hr⟩ := ih (some s) b rest2 h2
      exact ⟨st2, hp, hr⟩
    | some l =>
      cases l with
      | nil =>
        have h2 : (some s).getD [] ++ rest.flatten = b :: rest2 := by simpa using h
        obtain ⟨st2, hp, hr⟩ := ih (some s) b rest2 h2
        exact ⟨st2, hp, hr⟩
      | cons x xs =>
        simp only [Option.getD, List.cons_append, List.cons.injEq] at h
        obtain ⟨hx, hrest⟩ := h
        subst hx
        exact ⟨⟨some xs, s :: rest⟩, rfl, by simpa [streamRemaining] using hrest⟩

theorem polls_take : ∀ (n : Nat) (st : IpcReaderStream β),
    polls n st = (streamRemaining st).take n := by
  intro n
  induction n with
  | zero => intro st; simp [polls]
  | succ m ih =>
    intro st
    obtain ⟨r, segs⟩ := st
    cases hrem : streamRemaining ⟨r, segs⟩ with
    | nil =>
      have hnil := poll_next_go_nil segs r (by simpa [streamRemaining] using hrem)
      simp only [polls, poll_next, hnil]
      rw [ih]
      simp [streamRemaining, hrem]
    | cons b rest2 =>
      obtain ⟨st2, hp, hr⟩ :=
        poll_next_go_cons segs r b rest2 (by simpa [streamRemaining] using hrem)
      simp only [polls, poll_next, hp]
      rw [ih, hr]
      simp

/-- C2: a reader over k segments encoding batch sequences emits exactly
their concatenation in order, one batch per successful poll (the first n
polls emit the first n batches of the concatenation, so every poll after
the last batch yields end of stream, for arbitrarily many further polls),
and the exhausted state (no reader, no segments) is terminal: polling it
returns end of stream and leaves it unchanged. -/
theorem claim_C2_reader_concatenates (β : Type) (segs : List (List β)) (n m : Nat) :
    polls n ⟨none, segs⟩ = segs.flatten.take n ∧
    poll_next (⟨none, []⟩ : IpcReaderStream β) = (none, ⟨none, []⟩) ∧
    polls m (⟨none, []⟩ : IpcReaderStream β) = [] := by
  refine ⟨?_, rfl, ?_⟩
  · rw [polls_take]
    simp [streamRemaining]
  · rw [polls_take]
    simp [streamRemaining]

theorem poll_depth_go_le : ∀ (segs : List (List β)) (r : Option (List β)),
    poll_depth_go r segs ≤ segs.length + 1 := by
  intro segs
  induction segs with
  | nil =>
    intro r
    cases r with
    | none => simp [poll_depth_go]
    | some l => cases l <;> simp [poll_depth_go]
  | cons s rest ih =>
    intro r
    cases r with
    | none =>
      simp only [poll_depth_go, List.length_cons]
      have h := ih (some s)
      omega
    | some l =>
      cases l with
      | nil =>
        simp only [poll_depth_go, List.length_cons]
        have h := ih (some s)
        omega
      | cons x xs => simp [poll_depth_go]

/-- C9 (amended): the retry on segment exhaustion inside one poll is
self-recursion of poll_next that pulls one external segment per nested
invocation: the nesting depth of a single step is bounded by the number of
remaining segments plus one, so a step terminates for every finite segment
sequence and performs at most one retry per remaining segment. -/
theorem claim_C9_retry_bounded_by_segments (β : Type) (st : IpcReaderStream β) :
    poll_depth st ≤ st.segments.length + 1 :=
  poll_depth_go_le st.segments st.reader

/-- Counterexample to C9 as stated: the nesting of poll_next within one
step is not constant in the number of segments — with two empty segments
pending a single poll nests three invocations against one for an empty
segment sequence, so stack usage grows with the number of consecutively
exhausted segments (the source retries with return self.poll_next(cx),
recursion rather than an explicit loop). -/
theorem claim_C9_counterexample :
    poll_depth (⟨none, [[], []]⟩ : IpcReaderStream Nat) = 3 ∧
    poll_depth (⟨none, []⟩ : IpcReaderStream Nat) = 1 ∧
    poll_depth (⟨none, [[], []]⟩ : IpcReaderStream Nat) ≠
      poll_depth (⟨none, []⟩ : IpcReaderStream Nat) := by
  decide

/-! Behaviour of the byte source adapter. -/

theorem readerStep_invariant (s : ReadableByteChannelReader × ForeignChannel)
    (op : ReaderOp) (h1 : s.2.closeCount ≤ 1)
    (h2 : s.1.closed = false → s.2.closeCount = 0) :
    (readerStep s op).2.closeCount ≤ 1 ∧
      ((readerStep s op).1.closed = false → (readerStep s op).2.closeCount = 0) := by
  obtain ⟨r, ch⟩ := s
  by_cases hc : r.closed = true
  · cases op with
    | close => simp_all [readerStep, readerClose]
    | teardown => simp_all [readerStep, readerDrop, readerClose]
    | read bufLen => simp_all [readerStep, readerRead]
  · have hc2 : r.closed = false := by revert hc; cases r.closed <;> simp
    have hz : ch.closeCount = 0 := h2 hc2
    cases op with
    | close => simp_all [readerStep, readerClose]
    | teardown => simp_all [readerStep, readerDrop, readerClose]
    | read bufLen =>
      by_cases hlen : ch.pending.length < bufLen
      · simp [readerStep, readerRead, hc2, hz, hlen]
      · simp [readerStep, readerRead, hc2, hz, hlen]

theorem readerRun_at_most_once : ∀ (ops : List ReaderOp)
    (s : ReadableByteChannelReader × ForeignChannel), s.2.closeCount ≤ 1 →
    (s.1.closed = false → s.2.closeCount = 0) →
    (readerRun s ops).2.closeCount ≤ 1 := by
  intro ops
  induction ops with
  | nil => intro s h1 _; exact h1
  | cons op rest ih =>
    intro s h1 h2
    obtain ⟨g1, g2⟩ := readerStep_invariant s op h1 h2
    exact ih (readerStep s op) g1 g2

/-- C7: closing the byte source adapter is idempotent: the first close
invokes the foreign close exactly once, closing an already closed adapter
is a no-op, every read after close returns zero bytes without touching the
channel, teardown (Drop) just invokes close, and along any sequence of
close, teardown and read operations starting from a fresh adapter the
foreign channel is closed at most once. -/
theorem claim_C7_close_idempotent (pending : List Nat) (ops : List ReaderOp)
    (r : ReadableByteChannelReader) (ch : ForeignChannel) (bufLen : Nat)
    (hclosed : r.closed = true) :
    readerClose ⟨false⟩ ch = (⟨true⟩, ⟨ch.pending, ch.closeCount + 1⟩) ∧
    readerClose r ch = (r, ch) ∧
    readerRead r ch bufLen = (0, r, ch) ∧
    readerDrop r ch = readerClose r ch ∧
    (readerRun (⟨false⟩, ⟨pending, 0⟩) ops).2.closeCount ≤ 1 := by
  refine ⟨rfl, ?_, ?_, rfl, ?_⟩
  · simp [readerClose, hclosed]
  · simp [readerRead, hclosed]
  · exact readerRun_at_most_once ops (⟨false⟩, ⟨pending, 0⟩) (by simp) (by simp)

/-- Witness for C7 on a closed adapter and a concrete operation sequence
that reads past end of data and then closes and tears down repeatedly. -/
theorem claim_C7_witness :
    readerClose ⟨false⟩ ⟨[5], 1⟩ = (⟨true⟩, ⟨[5], 2⟩) ∧
    readerClose ⟨true⟩ ⟨[5], 1⟩ = (⟨true⟩, ⟨[5], 1⟩) ∧
    readerRead ⟨true⟩ ⟨[5], 1⟩ 3 = (0, ⟨true⟩, ⟨[5], 1⟩) ∧
    readerDrop ⟨true⟩ ⟨[5], 1⟩ = readerClose ⟨true⟩ ⟨[5], 1⟩ ∧
    (readerRun (⟨false⟩, ⟨[1, 2], 0⟩)
      [.read 1, .read 5, .close, .teardown, .close]).2.closeCount ≤ 1 := by
  have h := claim_C7_close_idempotent [1, 2]
    [.read 1, .read 5, .close, .teardown, .close] ⟨true⟩ ⟨[5], 1⟩ 3 rfl
  exact h

/-! Equivalence of the file segment source and the channel source. -/

/-- C8: decoding a file region segment (seek to the offset, reads bounded
to exactly length bytes, end of data afterwards even when the file has
more bytes) yields exactly the same batch sequence as decoding the
identical byte sequence delivered through a generic channel source, for
every deterministic batch decoder; both readers are built with compression
on and the same schema. -/
theorem claim_C8_file_segment_matches_channel (σ γ : Type)
    (decode : Option σ → Bool → List Nat → Option (γ × List Nat))
    (fuel : Nat) (schema : Option σ) (fileBytes channelBytes : List Nat)
    (offset length : Nat)
    (hb : channelBytes = fileSegmentInput fileBytes offset length) :
    get_file_segment_reader schema fileBytes offset length =
      get_channel_reader schema channelBytes true ∧
    readerBatches decode fuel (get_file_segment_reader schema fileBytes offset length) =
      readerBatches decode fuel (get_channel_reader schema channelBytes true) ∧
    (fileSegmentInput fileBytes offset length).length ≤ length ∧
    (offset + length ≤ fileBytes.length →
      (fileSegmentInput fileBytes offset length).length = length) := by
  subst hb
  refine ⟨rfl, rfl, ?_, ?_⟩
  · simp [fileSegmentInput]
  · intro h
    simp only [fileSegmentInput, List.length_take, List.length_drop]
    omega

/-- Witness for C8: the bytes of the file region at offset 2 with length 3
decode to the same batches as the same three bytes through a channel,
under a concrete one-byte-per-batch decoder. -/
theorem claim_C8_witness :
    get_file_segment_reader (some 0) [9, 9, 1, 2, 3, 7] 2 3 =
      get_channel_reader (some 0) [1, 2, 3] true ∧
    (fileSegmentInput [9, 9, 1, 2, 3, 7] 2 3).length = 3 := by
  obtain ⟨h1, h2, h3, h4⟩ := claim_C8_file_segment_matches_channel Nat Nat
    (fun _ _ l => match l with | [] => none | x :: r => some (x, r)) 5 (some 0)
    [9, 9, 1, 2, 3, 7] [1, 2, 3] 2 3 (by decide)
  exact ⟨h1, h4 (by decide)⟩

end Blaze
